import Mathlib

/-!
Verification development for `deploy.js` of the `thisismy-briefings` repository.

The script maintains a `root.txt` mapping file of derived keys to briefing
filenames.  Its pure core consists of four functions, embedded below:

* `generateKeys` — derives a lookup key from each filename and builds a
  key→filename record (`deploy.js` lines 58–77);
* `readRootTxt` — parses the persisted `key: value` text into a record
  (lines 80–92; the filesystem read is abstracted: the model is a function
  of the file's content);
* `updateEntries` — merges the previously persisted record with the freshly
  derived one (lines 95–105);
* `formatEntries` — serializes a record back to `key: value` lines
  (lines 114–118).

Modelling conventions.  A JavaScript plain object with string keys and string
values is modelled as an association list of its own properties in insertion
order (`List (String × String)`), together with the three pieces of object
semantics the source actually exercises:

* property reads such as `newEntries[key]` fall back to the prototype chain
  when no own property exists, so for the own property names of
  `Object.prototype` (`constructor`, `toString`, `__proto__`, …) the read
  yields an inherited, truthy value (`isObjectProtoKey`, `jsGetTruthy`);
* assignment `obj[k] = v` updates an existing own property in place or
  appends a new one — except that when no own property `__proto__` exists,
  `obj["__proto__"] = v` invokes the inherited `__proto__` accessor, which
  ignores a string value: no own property is created (`objSet`);
* `Object.keys`, `Object.entries` and the source iteration of
  `Object.assign` enumerate array-index keys (canonical numeric strings
  below `2^32 - 1`) first in ascending numeric order, then the remaining
  keys in insertion order (`enumOrder`).

JavaScript strings are modelled through `String.data : List Char`.
The regular-expression fragments of the source (`\d`, `[^-]`, `[^:]`, `\s`,
`.`, anchors, greedy/lazy repetition) are translated into explicit character
scans whose behaviour was traced from ECMAScript backtracking semantics:
`\d` is `Char.isDigit`, `\s` is the ECMAScript WhiteSpace/LineTerminator set
`isJsWhitespace`, and `.` excludes the four LineTerminator characters
`isLineTerminator`.  `String.prototype.toLowerCase` is modelled by
`Char.toLower` (ASCII lowering), which agrees with it on all ASCII input.
-/

namespace Deploy

/-- A JavaScript plain object with string keys/values, in insertion order. -/
abbrev Entries := List (String × String)

/-- The ECMAScript `\s` class: WhiteSpace and LineTerminator characters. -/
def isJsWhitespace (c : Char) : Bool :=
  c == '\t' || c == '\n' || c == '\u000B' || c == '\u000C' || c == '\r' ||
  c == ' ' || c == '\u00A0' || c == '\u1680' ||
  c == '\u2000' || c == '\u2001' || c == '\u2002' || c == '\u2003' ||
  c == '\u2004' || c == '\u2005' || c == '\u2006' || c == '\u2007' ||
  c == '\u2008' || c == '\u2009' || c == '\u200A' ||
  c == '\u2028' || c == '\u2029' || c == '\u202F' || c == '\u205F' ||
  c == '\u3000' || c == '\uFEFF'

/-- The ECMAScript LineTerminator characters, which `.` does not match. -/
def isLineTerminator (c : Char) : Bool :=
  c == '\n' || c == '\r' || c == '\u2028' || c == '\u2029'

/-- The own property names of `Object.prototype`: a plain object inherits a
(truthy: function or object) value at each of these keys. -/
def isObjectProtoKey (k : String) : Bool :=
  k == "constructor" || k == "hasOwnProperty" || k == "isPrototypeOf" ||
  k == "propertyIsEnumerable" || k == "toLocaleString" || k == "toString" ||
  k == "valueOf" || k == "__defineGetter__" || k == "__defineSetter__" ||
  k == "__lookupGetter__" || k == "__lookupSetter__" || k == "__proto__"

/-- Own-property read: first matching own entry, no prototype fallback. -/
def getOwn : Entries → String → Option String
  | [], _ => none
  | (k', v') :: rest, k => if k' = k then some v' else getOwn rest k

/-- Truthiness of the full property read `obj[k]`: an own string value is
truthy unless empty; with no own property, the read falls back to
`Object.prototype`, whose properties are all truthy (functions, and the
`__proto__` getter returning an object).  This is the test
`!newEntries[key]` performs. -/
def jsGetTruthy (m : Entries) (k : String) : Bool :=
  match getOwn m k with
  | some v => !v.isEmpty
  | none => isObjectProtoKey k

/-- Property assignment `obj[k] = v`: update an existing own property in
place, else append — except that with no own property `__proto__`, the
assignment `obj["__proto__"] = v` hits the inherited `__proto__` accessor,
which ignores a string value: a silent no-op. -/
def objSet : Entries → String → String → Entries
  | [], k, v => if k = "__proto__" then [] else [(k, v)]
  | (k', v') :: rest, k, v =>
    if k' = k then (k, v) :: rest else (k', v') :: objSet rest k v

/-- `k in obj` (as an own property). -/
def hasKey (m : Entries) (k : String) : Bool :=
  (getOwn m k).isSome

/-- `Object.keys obj` under the insertion-order model. -/
def keysOf (m : Entries) : List String :=
  m.map Prod.fst

/-- The record invariant: no key occurs twice.  Every object built by
property assignment satisfies it. -/
def NoDupKeys (m : Entries) : Prop :=
  (keysOf m).Nodup

instance (m : Entries) : Decidable (NoDupKeys m) := by
  unfold NoDupKeys; infer_instance

/-- All values of the record are non-empty strings (true of every record the
program itself produces: parsed values match `.+` and derived values are
directory filenames). -/
def ValuesNonempty (m : Entries) : Prop :=
  ∀ kv ∈ m, kv.2 ≠ ""

instance (m : Entries) : Decidable (ValuesNonempty m) := by
  unfold ValuesNonempty; infer_instance

/-- A sequence of property assignments `acc[k] = v`, one per pair of `news`,
in order — the effect of `Object.assign(acc, news)` and of the assignment
loops in `generateKeys` and `readRootTxt`. -/
def assignAll (m : Entries) (news : Entries) : Entries :=
  news.foldl (fun acc kv => objSet acc kv.1 kv.2) m

/-- Building a fresh object `{}` by assigning a list of pairs in order. -/
def buildEntries (pairs : Entries) : Entries :=
  assignAll [] pairs

/-- The numeric value of a canonical array-index key: a non-empty digit
string with no leading zero (`"0"` aside) whose value is below `2^32 - 1`. -/
def arrayIndexVal (k : String) : Option Nat :=
  match k.data with
  | [] => none
  | ['0'] => some 0
  | c :: cs =>
    if c.isDigit ∧ c ≠ '0' ∧ cs.all Char.isDigit then
      let n := (c :: cs).foldl (fun acc d => acc * 10 + (d.toNat - '0'.toNat)) 0
      if n < 4294967295 then some n else none
    else none

/-- Whether a key is an array index in the ECMAScript sense. -/
def isArrayIndex (k : String) : Bool :=
  (arrayIndexVal k).isSome

/-- Insertion into a list sorted by ascending array-index value (stable). -/
def insertByIndex (kv : String × String) : Entries → Entries
  | [] => [kv]
  | kv' :: rest =>
    if (arrayIndexVal kv.1).getD 0 < (arrayIndexVal kv'.1).getD 0 then
      kv :: kv' :: rest
    else kv' :: insertByIndex kv rest

/-- Sort by ascending array-index value (insertion sort, stable). -/
def sortByIndex : Entries → Entries
  | [] => []
  | kv :: rest => insertByIndex kv (sortByIndex rest)

/-- The `[[OwnPropertyKeys]]` enumeration order of a plain object, as used
by `Object.keys`, `Object.entries` and `Object.assign`: array-index keys
first in ascending numeric order, then the remaining keys in insertion
order. -/
def enumOrder (m : Entries) : Entries :=
  sortByIndex (m.filter fun kv => isArrayIndex kv.1) ++
    m.filter fun kv => !isArrayIndex kv.1

/-- `updateEntries` (deploy.js 95–105): delete every key of the previous
record at which the fresh record's property read `!newEntries[key]` is
falsy (the read consults the prototype chain), then `Object.assign` the
fresh record onto what remains, iterating the fresh record's own keys in
enumeration order.  The deletion loop's own enumeration order is
irrelevant: deleting a set of keys is order-independent, hence the
filter. -/
def updateEntries (existingEntries newEntries : Entries) : Entries :=
  assignAll (existingEntries.filter fun kv => jsGetTruthy newEntries kv.1)
    (enumOrder newEntries)

/-- `filename.replace(/\.[^/.]+$/, '')`: strip a final extension — a last
dot followed by a non-empty run of characters other than `/` and `.`. -/
def stripExt (cs : List Char) : List Char :=
  let after := (cs.reverse.takeWhile (· ≠ '.')).reverse
  if after.length = cs.length then cs
  else if after.isEmpty then cs
  else if after.contains '/' then cs
  else cs.take (cs.length - after.length - 1)

/-- The literal suffix removed by `replace(/\.thisismy$/, '')`. -/
def thisismyMarker : List Char := ".thisismy".data

/-- `replace(/\.thisismy$/, '')`. -/
def stripThisismy (cs : List Char) : List Char :=
  if thisismyMarker.isSuffixOf cs then
    cs.take (cs.length - thisismyMarker.length)
  else cs

/-- Index of the first hyphen that is immediately followed by a digit.
`/^[^-]*-(?:[^-]*-)*?(?=\d)/` matches a string exactly when such a pair of
adjacent characters exists, and the match is the prefix up to and including
that hyphen: the lazy group steps from hyphen to hyphen and stops at the
first hyphen whose successor satisfies the `(?=\d)` lookahead. -/
def firstHyphenDigit : List Char → Option Nat
  | [] => none
  | c :: rest =>
    match rest with
    | [] => none
    | d :: _ =>
      if c = '-' ∧ d.isDigit then some 0
      else (firstHyphenDigit rest).map (· + 1)

/-- `baseNameMatch ? baseNameMatch[0] : filenameNoExtNoSuffix`
(deploy.js 65–66): the regex match when it exists, the whole string
otherwise. -/
def baseNameOf (cs : List Char) : List Char :=
  match firstHyphenDigit cs with
  | some i => cs.take (i + 1)
  | none => cs

/-- The replace of pattern `-$` by the empty string: remove one trailing
hyphen. -/
def stripTrailingHyphen (cs : List Char) : List Char :=
  if cs.getLast? = some '-' then cs.dropLast else cs

/-- The key-derivation pipeline of `generateKeys` on one filename
(deploy.js 61–72), at the character-list level. -/
def deriveKeyL (cs : List Char) : List Char :=
  (stripTrailingHyphen (baseNameOf (stripThisismy (stripExt cs)))).map
    Char.toLower

/-- Key derived from a filename. -/
def deriveKey (filename : String) : String :=
  ⟨deriveKeyL filename.data⟩

/-- `generateKeys` (deploy.js 58–77): assign `fileToKey[key] = filename`
for each file in enumeration order. -/
def generateKeys (files : List String) : Entries :=
  buildEntries (files.map fun f => (deriveKey f, f))

/-- `line.match(/^([^:]+):\s*(.+)$/)` (deploy.js 85).  The key capture is
the non-empty run before the first colon; after the colon, greedy `\s*`
backtracks just far enough for `(.+)$` to take a non-empty,
LineTerminator-free remainder reaching the end of the line. -/
def parseLineL (line : List Char) : Option (List Char × List Char) :=
  let k := line.takeWhile (· ≠ ':')
  if k.length = line.length then none
  else if k.isEmpty then none
  else
    let rest := line.drop (k.length + 1)
    if rest.isEmpty then none
    else
      let i := min (rest.takeWhile isJsWhitespace).length (rest.length - 1)
      let v := rest.drop i
      if v.any isLineTerminator then none else some (k, v)

/-- `content.split('\n')`. -/
def splitNl : List Char → List (List Char)
  | [] => [[]]
  | c :: rest =>
    if c = '\n' then [] :: splitNl rest
    else
      match splitNl rest with
      | [] => [[c]]
      | l :: ls => (c :: l) :: ls

/-- `readRootTxt` (deploy.js 80–92) as a function of the file content:
split into lines, and for each line matching the pattern assign
`entries[match[1]] = match[2]`; other lines are skipped. -/
def readRootTxt (content : String) : Entries :=
  (splitNl content.data).foldl
    (fun acc line =>
      match parseLineL line with
      | some kv => objSet acc ⟨kv.1⟩ ⟨kv.2⟩
      | none => acc)
    []

/-- One serialized entry: `` `${key}: ${value}` ``. -/
def formatLine (kv : String × String) : String :=
  kv.1 ++ ": " ++ kv.2

/-- The `map`/`join('\n')` of the serialization, over an explicit list of
entries. -/
def formatLines : Entries → String
  | [] => ""
  | [kv] => formatLine kv
  | kv :: rest => formatLine kv ++ "\n" ++ formatLines rest

/-- `formatEntries` (deploy.js 114–118): `Object.entries(entries)` — the
own entries in enumeration order — mapped to lines and joined with
`'\n'`. -/
def formatEntries (entries : Entries) : String :=
  formatLines (enumOrder entries)

/-- Joining character-level lines with `'\n'` — the `List Char` image of
`formatEntries`, used to reason about serialization and re-parsing. -/
def joinNl : List (List Char) → List Char
  | [] => []
  | [l] => l
  | l :: ls => l ++ '\n' :: joinNl ls

/-- The key the specification's digit rule predicts (C1, stated from the
spec's words): the lowercase prefix of the stripped filename that ends
strictly before the first digit, with a trailing hyphen removed. -/
def specKeyBeforeFirstDigit (filename : String) : String :=
  ⟨(stripTrailingHyphen ((stripThisismy (stripExt filename.data)).takeWhile
      fun c => !c.isDigit)).map Char.toLower⟩

/-- The key the specification's no-digit rule predicts (C5, stated from the
spec's words): the lowercase stripped filename, with no further change. -/
def specKeyNoDigit (filename : String) : String :=
  ⟨(stripThisismy (stripExt filename.data)).map Char.toLower⟩

/-- `readRootTxt`'s per-line action, as an `Option`-valued parse at the
string level. -/
def parseLine (line : List Char) : Option (String × String) :=
  (parseLineL line).map fun kv => (⟨kv.1⟩, ⟨kv.2⟩)

/-- A line "matching `key: value`" in the words of the specification: a
non-empty colon-free key, a colon, optional whitespace, and a non-empty
remainder. -/
def LineMatchesSpec (line : List Char) : Prop :=
  ∃ k w v, line = k ++ ':' :: (w ++ v) ∧ k ≠ [] ∧ ':' ∉ k ∧
    (∀ c ∈ w, isJsWhitespace c = true) ∧ v ≠ []

/-- The repaired line pattern: additionally, the remainder is free of
LineTerminator characters (the source's `.+` cannot match them). -/
def LineMatchesCode (line : List Char) : Prop :=
  ∃ k w v, line = k ++ ':' :: (w ++ v) ∧ k ≠ [] ∧ ':' ∉ k ∧
    (∀ c ∈ w, isJsWhitespace c = true) ∧ v ≠ [] ∧
    (∀ c ∈ v, isLineTerminator c = false)

/-! ### Association-list lemmas for the object model -/

/-- Lookup after assignment, away from `__proto__` (at `__proto__`, both
the silent no-op and the in-place update leave the lookup describable:
see `getOwn_objSet_ne`). -/
theorem getOwn_objSet (m : Entries) (k v q : String) (hq : q ≠ "__proto__") :
    getOwn (objSet m k v) q = if k = q then some v else getOwn m q := by
  induction m with
  | nil =>
    show getOwn (if k = "__proto__" then [] else [(k, v)]) q =
      if k = q then some v else getOwn [] q
    by_cases hkp : k = "__proto__"
    · have hkq : ¬ k = q := fun h => hq (h ▸ hkp)
      rw [if_pos hkp, if_neg hkq]
    · rw [if_neg hkp]
      simp [getOwn]
  | cons kv rest ih =>
    obtain ⟨a, b⟩ := kv
    by_cases hak : a = k
    · subst hak
      by_cases haq : a = q <;> simp [objSet, getOwn, haq]
    · by_cases haq : a = q
      · subst haq
        have : ¬ k = a := fun h => hak h.symm
        simp [objSet, getOwn, hak, this]
      · simp [objSet, getOwn, hak, haq, ih]

/-- Assignment at one key does not affect lookups at another key. -/
theorem getOwn_objSet_ne (m : Entries) (k v q : String) (h : ¬ k = q) :
    getOwn (objSet m k v) q = getOwn m q := by
  induction m with
  | nil =>
    by_cases hkp : k = "__proto__" <;> simp [objSet, hkp, getOwn, h]
  | cons kv rest ih =>
    obtain ⟨a, b⟩ := kv
    by_cases hak : a = k
    · subst hak
      simp [objSet, getOwn, h]
    · simp [objSet, hak, getOwn, ih]

theorem hasKey_objSet (m : Entries) (k v q : String) (hq : q ≠ "__proto__") :
    hasKey (objSet m k v) q = (decide (k = q) || hasKey m q) := by
  unfold hasKey
  rw [getOwn_objSet m k v q hq]
  by_cases h : k = q <;> simp [h]

theorem keysOf_objSet (m : Entries) (k v : String) (hp : k ≠ "__proto__") :
    keysOf (objSet m k v) =
      if hasKey m k then keysOf m else keysOf m ++ [k] := by
  induction m with
  | nil => simp [objSet, hp, keysOf, hasKey, getOwn]
  | cons kv rest ih =>
    obtain ⟨a, b⟩ := kv
    by_cases hak : a = k
    · subst hak
      simp [objSet, keysOf, hasKey, getOwn]
    · have hka : ¬ a = k := hak
      have h2 : hasKey ((a, b) :: rest) k = hasKey rest k := by
        simp [hasKey, getOwn, hka]
      simp only [objSet, if_neg hka, keysOf, List.map_cons, h2]
      by_cases hr : hasKey rest k
      · simpa [keysOf, hr] using congrArg (a :: ·) (by simpa [keysOf, hr] using ih)
      · simp only [keysOf] at ih
        simp [hr] at ih
        simp [hr, ih]

theorem hasKey_iff_mem_keysOf (m : Entries) (q : String) :
    hasKey m q = true ↔ q ∈ keysOf m := by
  induction m with
  | nil => simp [hasKey, getOwn, keysOf]
  | cons kv rest ih =>
    obtain ⟨a, b⟩ := kv
    by_cases haq : a = q
    · subst haq
      simp [hasKey, getOwn, keysOf]
    · have : ¬ a = q := haq
      simp [hasKey, getOwn, this, keysOf, Ne.symm haq] at ih ⊢
      exact ih

theorem getOwn_mem (m : Entries) (q v : String) (h : getOwn m q = some v) :
    (q, v) ∈ m := by
  induction m with
  | nil => simp [getOwn] at h
  | cons kv rest ih =>
    obtain ⟨a, b⟩ := kv
    by_cases haq : a = q
    · subst haq
      simp [getOwn] at h
      simp [h]
    · simp [getOwn, haq] at h
      exact List.mem_cons_of_mem _ (ih h)

theorem getOwn_of_mem_nodup (m : Entries) (kv : String × String)
    (hnd : NoDupKeys m) (hmem : kv ∈ m) : getOwn m kv.1 = some kv.2 := by
  induction m with
  | nil => simp at hmem
  | cons hd rest ih =>
    obtain ⟨a, b⟩ := hd
    unfold NoDupKeys keysOf at hnd
    simp only [List.map_cons, List.nodup_cons] at hnd
    rcases List.mem_cons.mp hmem with h | h
    · subst h
      simp [getOwn]
    · have hne : ¬ a = kv.1 := by
        intro heq
        exact hnd.1 (heq ▸ (List.mem_map.mpr ⟨kv, h, rfl⟩))
      simp only [getOwn, if_neg hne]
      exact ih hnd.2 h

theorem objSet_eq_self (m : Entries) (k v : String)
    (h : getOwn m k = some v) : objSet m k v = m := by
  induction m with
  | nil => simp [getOwn] at h
  | cons kv rest ih =>
    obtain ⟨a, b⟩ := kv
    by_cases hak : a = k
    · subst hak
      simp [getOwn] at h
      simp [objSet, h]
    · simp [getOwn, hak] at h
      simp [objSet, hak, ih h]

theorem objSet_append (m : Entries) (k v : String)
    (h : hasKey m k = false) (hp : k ≠ "__proto__") :
    objSet m k v = m ++ [(k, v)] := by
  induction m with
  | nil => simp [objSet, hp]
  | cons kv rest ih =>
    obtain ⟨a, b⟩ := kv
    by_cases hak : a = k
    · subst hak
      simp [hasKey, getOwn] at h
    · have : hasKey rest k = false := by
        simpa [hasKey, getOwn, hak] using h
      simp [objSet, hak, ih this]

theorem assignAll_nil (m : Entries) : assignAll m [] = m := rfl

theorem assignAll_append_single (m : Entries) (l : Entries) (kv : String × String) :
    assignAll m (l ++ [kv]) = objSet (assignAll m l) kv.1 kv.2 := by
  unfold assignAll
  rw [List.foldl_append]
  rfl

/-- Last-write-wins: away from `__proto__`, the lookup after a sequence of
assignments is the last assigned value for the key, falling back to the
initial object. -/
theorem getOwn_assignAll (l : Entries) (m : Entries) (q : String)
    (hq : q ≠ "__proto__") :
    getOwn (assignAll m l) q =
      ((l.filter fun kv => kv.1 = q).getLast?.map Prod.snd).or (getOwn m q) := by
  induction l using List.reverseRecOn with
  | nil => simp [assignAll]
  | append_singleton l kv ih =>
    rw [assignAll_append_single, getOwn_objSet _ _ _ _ hq, List.filter_append]
    by_cases hkq : kv.1 = q
    · simp [hkq, List.filter, List.getLast?_concat]
    · simp only [List.filter, hkq, decide_eq_true_eq]
      simp [hkq, ih]

/-- Assignments at keys all different from `q` leave the lookup at `q`
unchanged (in particular, assignments cannot create an own `__proto__`). -/
theorem getOwn_assignAll_ne_all (l : Entries) (m : Entries) (q : String)
    (h : ∀ kv ∈ l, ¬ kv.1 = q) :
    getOwn (assignAll m l) q = getOwn m q := by
  induction l generalizing m with
  | nil => rfl
  | cons kv rest ih =>
    have step : assignAll m (kv :: rest) = assignAll (objSet m kv.1 kv.2) rest :=
      rfl
    rw [step, ih (objSet m kv.1 kv.2) fun x hx => h x (by simp [hx]),
      getOwn_objSet_ne m kv.1 kv.2 q (h kv (by simp))]

theorem hasKey_assignAll (l : Entries) (m : Entries) (q : String)
    (hq : q ≠ "__proto__") :
    hasKey (assignAll m l) q = (hasKey m q || l.any fun kv => kv.1 = q) := by
  unfold hasKey
  rw [getOwn_assignAll l m q hq]
  have key : (l.filter fun kv => kv.1 = q) = [] ↔
      (l.any fun kv => kv.1 = q) = false := by
    rw [List.filter_eq_nil_iff, List.any_eq_false]
  cases hx : (l.filter fun kv => kv.1 = q).getLast? with
  | none =>
    have hnil := List.getLast?_eq_none_iff.mp hx
    simp [key.mp hnil]
  | some x =>
    have hne : (l.filter fun kv => kv.1 = q) ≠ [] := by
      intro hnil
      rw [hnil] at hx
      simp at hx
    have hany : (l.any fun kv => kv.1 = q) = true := by
      by_contra h
      rw [Bool.not_eq_true] at h
      exact hne (key.mpr h)
    simp [hany, Option.or]

/-- Appending fresh keys: assigning pairs whose keys are absent from the
object (and are not `__proto__`) appends them in order. -/
theorem assignAll_of_fresh (l : Entries) (m : Entries)
    (hnd : NoDupKeys l) (hfresh : ∀ kv ∈ l, hasKey m kv.1 = false)
    (hproto : ∀ kv ∈ l, kv.1 ≠ "__proto__") :
    assignAll m l = m ++ l := by
  induction l generalizing m with
  | nil => simp [assignAll]
  | cons kv rest ih =>
    unfold NoDupKeys keysOf at hnd
    simp only [List.map_cons, List.nodup_cons] at hnd
    have step : assignAll m (kv :: rest) = assignAll (objSet m kv.1 kv.2) rest := rfl
    have hf1 : hasKey m kv.1 = false := hfresh kv (by simp)
    have hfresh' : ∀ kv' ∈ rest, hasKey (objSet m kv.1 kv.2) kv'.1 = false := by
      intro kv' hmem
      rw [hasKey_objSet m kv.1 kv.2 kv'.1 (hproto kv' (by simp [hmem]))]
      have h1 : hasKey m kv'.1 = false := hfresh kv' (by simp [hmem])
      have h2 : ¬ kv.1 = kv'.1 := by
        intro heq
        exact hnd.1 (heq ▸ List.mem_map.mpr ⟨kv', hmem, rfl⟩)
      simp [h1, h2]
    rw [step, ih (objSet m kv.1 kv.2) hnd.2 hfresh'
        (fun kv' hmem => hproto kv' (by simp [hmem])),
      objSet_append m kv.1 kv.2 hf1 (hproto kv (by simp))]
    simp

/-- Building an object from duplicate-free, `__proto__`-free pairs
reproduces the pairs. -/
theorem buildEntries_of_nodup (l : Entries) (hnd : NoDupKeys l)
    (hproto : ∀ kv ∈ l, kv.1 ≠ "__proto__") :
    buildEntries l = l := by
  unfold buildEntries
  rw [assignAll_of_fresh l [] hnd (by intro kv _; rfl) hproto]
  rfl

/-- Re-assigning every pair already present leaves the object unchanged. -/
theorem assignAll_of_present (l : Entries) (m : Entries)
    (h : ∀ kv ∈ l, getOwn m kv.1 = some kv.2) :
    assignAll m l = m := by
  induction l with
  | nil => rfl
  | cons kv rest ih =>
    have step : assignAll m (kv :: rest) = assignAll (objSet m kv.1 kv.2) rest := rfl
    rw [step, objSet_eq_self m kv.1 kv.2 (h kv (by simp))]
    exact ih fun kv' hmem => h kv' (by simp [hmem])

/-- Filtering by a predicate on keys commutes with lookup. -/
theorem getOwn_filter_keyPred (l : Entries) (P : String → Bool) (q : String) :
    getOwn (l.filter fun kv => P kv.1) q =
      if P q then getOwn l q else none := by
  induction l with
  | nil => simp [getOwn]
  | cons kv rest ih =>
    obtain ⟨a, b⟩ := kv
    by_cases hPa : P a
    · by_cases haq : a = q
      · subst haq
        simp [List.filter, hPa, getOwn]
      · simp [List.filter, hPa, getOwn, haq, ih]
    · have hPa' : P a = false := by simpa using hPa
      by_cases haq : a = q
      · subst haq
        simp [List.filter, hPa', getOwn, ih]
      · simp [List.filter, hPa', getOwn, haq, ih]

/-- With duplicate-free keys, the last matching entry is the first. -/
theorem getLast_filter_of_nodup (l : Entries) (hnd : NoDupKeys l) (q : String) :
    ((l.filter fun kv => kv.1 = q).getLast?.map Prod.snd) = getOwn l q := by
  induction l with
  | nil => simp [getOwn]
  | cons kv rest ih =>
    obtain ⟨a, b⟩ := kv
    unfold NoDupKeys keysOf at hnd
    simp only [List.map_cons, List.nodup_cons] at hnd
    by_cases haq : a = q
    · subst haq
      have hnone : rest.filter (fun kv => kv.1 = a) = [] := by
        rw [List.filter_eq_nil_iff]
        intro kv hmem
        simp only [decide_eq_true_eq]
        intro heq
        exact hnd.1 (heq ▸ List.mem_map.mpr ⟨kv, hmem, rfl⟩)
      simp [List.filter, hnone, getOwn]
    · have hstep : ((a, b) :: rest).filter (fun kv => kv.1 = q) =
          rest.filter (fun kv => kv.1 = q) := by
        simp [List.filter, haq]
      rw [hstep, ih hnd.2]
      simp [getOwn, haq]

/-! ### Enumeration order -/

theorem insertByIndex_perm (kv : String × String) (l : Entries) :
    (insertByIndex kv l).Perm (kv :: l) := by
  induction l with
  | nil => exact List.Perm.refl _
  | cons kv' rest ih =>
    rw [insertByIndex]
    split
    · exact List.Perm.refl _
    · exact (ih.cons kv').trans (List.Perm.swap kv kv' rest)

theorem sortByIndex_perm (l : Entries) : (sortByIndex l).Perm l := by
  induction l with
  | nil => exact List.Perm.refl _
  | cons kv rest ih =>
    exact (insertByIndex_perm kv (sortByIndex rest)).trans (ih.cons kv)

/-- Enumeration order is a permutation of insertion order. -/
theorem enumOrder_perm (m : Entries) : (enumOrder m).Perm m := by
  unfold enumOrder
  exact ((sortByIndex_perm _).append_right _).trans
    (List.filter_append_perm _ m)

theorem mem_enumOrder {kv : String × String} {m : Entries}
    (h : kv ∈ enumOrder m) : kv ∈ m :=
  (enumOrder_perm m).mem_iff.mp h

/-- Without array-index keys, enumeration order is insertion order. -/
theorem enumOrder_eq_self (m : Entries)
    (h : ∀ kv ∈ m, isArrayIndex kv.1 = false) : enumOrder m = m := by
  unfold enumOrder
  have h1 : (m.filter fun kv => isArrayIndex kv.1) = [] := by
    rw [List.filter_eq_nil_iff]
    intro kv hkv
    simp [h kv hkv]
  have h2 : (m.filter fun kv => !isArrayIndex kv.1) = m := by
    rw [List.filter_eq_self]
    intro kv hkv
    simp [h kv hkv]
  rw [h1, h2]
  rfl

/-- With duplicate-free keys, the entries at a key are at most a
singleton. -/
theorem filter_key_of_nodup (l : Entries) (hnd : NoDupKeys l) (q : String) :
    (l.filter fun kv => kv.1 = q) = [] ∨
      ∃ v, (l.filter fun kv => kv.1 = q) = [(q, v)] := by
  induction l with
  | nil => exact Or.inl rfl
  | cons kv rest ih =>
    obtain ⟨a, b⟩ := kv
    unfold NoDupKeys keysOf at hnd
    simp only [List.map_cons, List.nodup_cons] at hnd
    by_cases haq : a = q
    · subst haq
      have hnone : rest.filter (fun kv => kv.1 = a) = [] := by
        rw [List.filter_eq_nil_iff]
        intro kv hmem
        simp only [decide_eq_true_eq]
        intro heq
        exact hnd.1 (heq ▸ List.mem_map.mpr ⟨kv, hmem, rfl⟩)
      refine Or.inr ⟨b, ?_⟩
      simp [List.filter, hnone]
    · have hstep : ((a, b) :: rest).filter (fun kv => kv.1 = q) =
          rest.filter (fun kv => kv.1 = q) := by
        simp [List.filter, haq]
      rw [hstep]
      exact ih hnd.2

/-- Filtering a duplicate-free record at one key is enumeration-order
insensitive. -/
theorem enumOrder_filter_key (l : Entries) (hnd : NoDupKeys l) (q : String) :
    ((enumOrder l).filter fun kv => kv.1 = q) =
      l.filter fun kv => kv.1 = q := by
  have hperm := (enumOrder_perm l).filter fun kv => decide (kv.1 = q)
  rcases filter_key_of_nodup l hnd q with h | ⟨v, h⟩
  · rw [h] at hperm ⊢
    exact List.perm_nil.mp hperm
  · rw [h] at hperm ⊢
    exact List.perm_singleton.mp hperm

/-- Object.assign of a duplicate-free record, lookups away from
`__proto__`: the fresh value wins, falling back to the target. -/
theorem assignAll_enum_getOwn (fresh m0 : Entries) (q : String)
    (hq : q ≠ "__proto__") (hnd : NoDupKeys fresh) :
    getOwn (assignAll m0 (enumOrder fresh)) q =
      (getOwn fresh q).or (getOwn m0 q) := by
  rw [getOwn_assignAll _ _ q hq, enumOrder_filter_key fresh hnd q,
    getLast_filter_of_nodup fresh hnd q]

/-- The merge's lookup contract, for records without prototype-shadowing
keys: after `updateEntries`, every lookup agrees with the fresh record
(shared by several results below). -/
theorem getOwn_updateEntries (prev fresh : Entries) (hnd : NoDupKeys fresh)
    (hprev : ∀ kv ∈ prev, isObjectProtoKey kv.1 = false)
    (hfresh : ∀ kv ∈ fresh, kv.1 ≠ "__proto__") (q : String) :
    getOwn (updateEntries prev fresh) q = getOwn fresh q := by
  have hprevP : getOwn prev "__proto__" = none := by
    cases hg : getOwn prev "__proto__" with
    | none => rfl
    | some v =>
      have := hprev _ (getOwn_mem prev _ v hg)
      simp [isObjectProtoKey] at this
  unfold updateEntries
  by_cases hq : q = "__proto__"
  · subst hq
    have hfreshP : getOwn fresh "__proto__" = none := by
      cases hg : getOwn fresh "__proto__" with
      | none => rfl
      | some v => exact absurd rfl (hfresh _ (getOwn_mem fresh _ v hg))
    rw [getOwn_assignAll_ne_all _ _ _
        (fun kv hkv => hfresh kv (mem_enumOrder hkv)),
      getOwn_filter_keyPred prev (fun k => jsGetTruthy fresh k) "__proto__",
      hfreshP, hprevP]
    simp
  · rw [assignAll_enum_getOwn fresh _ q hq hnd]
    cases hg : getOwn fresh q with
    | some v => simp [Option.or]
    | none =>
      simp only [Option.or]
      rw [getOwn_filter_keyPred prev (fun k => jsGetTruthy fresh k) q]
      have hP : jsGetTruthy fresh q = isObjectProtoKey q := by
        rw [jsGetTruthy, hg]
      by_cases hpk : isObjectProtoKey q = true
      · have hprevq : getOwn prev q = none := by
          cases hg' : getOwn prev q with
          | none => rfl
          | some v =>
            have := hprev _ (getOwn_mem prev q v hg')
            rw [this] at hpk
            exact absurd hpk (by simp)
        simp [hP, hpk, hprevq]
      · simp only [hP]
        simp [hpk]

/-- For a key that does not shadow `Object.prototype`, the truthiness of
`newEntries[key]` over a record with non-empty values coincides with key
membership. -/
theorem jsGetTruthy_eq_hasKey (m : Entries) (q : String)
    (hq : isObjectProtoKey q = false) (hval : ValuesNonempty m) :
    jsGetTruthy m q = hasKey m q := by
  cases hG : getOwn m q with
  | none => simp [jsGetTruthy, hasKey, hG, hq]
  | some w =>
    have hw : w ≠ "" := hval (q, w) (getOwn_mem m q w hG)
    have hie : w.isEmpty = false := by
      rw [Bool.eq_false_iff]
      intro h
      exact hw ((String.isEmpty_iff w).mp h)
    simp [jsGetTruthy, hasKey, hG, hie]

theorem hasKey_filter_keyPred (l : Entries) (P : String → Bool) (q : String) :
    hasKey (l.filter fun kv => P kv.1) q = (P q && hasKey l q) := by
  unfold hasKey
  rw [getOwn_filter_keyPred]
  by_cases h : P q <;> simp [h]

theorem keysOf_filter_keyPred (l : Entries) (P : String → Bool) :
    keysOf (l.filter fun kv => P kv.1) = (keysOf l).filter P := by
  induction l with
  | nil => rfl
  | cons kv rest ih =>
    by_cases h : P kv.1
    · simp [List.filter, h, keysOf] at ih ⊢
      exact ih
    · have h' : P kv.1 = false := by simpa using h
      simp [List.filter, h', keysOf] at ih ⊢
      exact ih

/-- Keys after a sequence of assignments at non-`__proto__` keys: the
initial keys, followed by the assigned keys not already present, in
assignment order. -/
theorem keysOf_assignAll (l : Entries) (m : Entries) (hnd : NoDupKeys l)
    (hproto : ∀ kv ∈ l, kv.1 ≠ "__proto__") :
    keysOf (assignAll m l) =
      keysOf m ++ (keysOf l).filter fun k => !(hasKey m k) := by
  induction l generalizing m with
  | nil => simp [assignAll, keysOf]
  | cons kv rest ih =>
    unfold NoDupKeys keysOf at hnd
    simp only [List.map_cons, List.nodup_cons] at hnd
    have step : assignAll m (kv :: rest) = assignAll (objSet m kv.1 kv.2) rest := rfl
    rw [step, ih (objSet m kv.1 kv.2) hnd.2
        (fun kv' hmem => hproto kv' (by simp [hmem])),
      keysOf_objSet m kv.1 kv.2 (hproto kv (by simp))]
    have hcong : ((keysOf rest).filter fun k => !(hasKey (objSet m kv.1 kv.2) k)) =
        (keysOf rest).filter fun k => !(hasKey m k) := by
      apply List.filter_congr
      intro q hq
      obtain ⟨kvq, hkvq, rfl⟩ := List.mem_map.mp hq
      rw [hasKey_objSet m kv.1 kv.2 kvq.1
        (hproto kvq (by simp [hkvq]))]
      have hne : ¬ kv.1 = kvq.1 := fun heq =>
        hnd.1 (heq ▸ List.mem_map.mpr ⟨kvq, hkvq, rfl⟩)
      simp [hne]
    rw [hcong]
    by_cases hk : hasKey m kv.1
    · simp [hk, keysOf, List.filter]
    · have hk' : hasKey m kv.1 = false := by simpa using hk
      simp [hk', keysOf, List.filter]

/-! ### C2, C6, C7: the merge (`updateEntries`) -/

/-- Counterexample to C2 as stated: a previous key that names an
`Object.prototype` property (here `constructor`, reachable from a root.txt
line `constructor: old.pdf`) and is absent from the fresh record survives
the merge — `!newEntries['constructor']` reads the inherited, truthy
`Object` function, so the deletion is skipped.  The result's key set is
strictly larger than the fresh key set. -/
theorem c2_merge_is_fresh_counterexample :
    updateEntries [("constructor", "old.pdf")] [("a", "x.pdf")] =
      [("constructor", "old.pdf"), ("a", "x.pdf")] ∧
    hasKey (updateEntries [("constructor", "old.pdf")] [("a", "x.pdf")])
      "constructor" = true ∧
    hasKey [("a", "x.pdf")] "constructor" = false :=
  ⟨by decide, by decide, by decide⟩

/-- C2 (amended): for every previous record none of whose keys names an
`Object.prototype` property, and every duplicate-free fresh record without
the key `__proto__`, the merge result's lookup function is exactly the
fresh record's: the key set is the fresh key set, the value at each key is
the fresh value, and keys absent from the fresh record are absent from the
result.  (As stated, over all records, the claim is refuted by
`c2_merge_is_fresh_counterexample`.) -/
theorem c2_merge_is_fresh (prev fresh : Entries) (hnd : NoDupKeys fresh)
    (hprev : ∀ kv ∈ prev, isObjectProtoKey kv.1 = false)
    (hfresh : ∀ kv ∈ fresh, kv.1 ≠ "__proto__") :
    (∀ k, getOwn (updateEntries prev fresh) k = getOwn fresh k) ∧
    (∀ k, hasKey (updateEntries prev fresh) k = hasKey fresh k) := by
  refine ⟨fun k => getOwn_updateEntries prev fresh hnd hprev hfresh k,
    fun k => ?_⟩
  unfold hasKey
  rw [getOwn_updateEntries prev fresh hnd hprev hfresh k]

/-- Witness for C2 (amended) at a concrete merge: the stale key `a`
disappears, `b` is overwritten, `c` is inserted. -/
theorem c2_merge_is_fresh_witness :
    getOwn (updateEntries [("a", "1"), ("b", "2")] [("b", "3"), ("c", "4")]) "a" =
      getOwn [("b", "3"), ("c", "4")] "a" ∧
    hasKey (updateEntries [("a", "1"), ("b", "2")] [("b", "3"), ("c", "4")]) "a" =
      hasKey [("b", "3"), ("c", "4")] "a" :=
  ⟨(c2_merge_is_fresh _ _ (by decide) (by decide) (by decide)).1 "a",
   (c2_merge_is_fresh _ _ (by decide) (by decide) (by decide)).2 "a"⟩

/-- Counterexample to C6 as stated: an own `__proto__` property with an
empty value (constructible with `Object.defineProperty`, though not by this
program) does not survive a self-merge: the falsy value triggers the
deletion, and `Object.assign` cannot re-create the own property — the
assignment dies in the inherited `__proto__` setter. -/
theorem c6_merge_idempotent_counterexample :
    NoDupKeys [(("__proto__" : String), ("" : String))] ∧
    updateEntries [("__proto__", "")] [("__proto__", "")] = [] ∧
    getOwn (updateEntries [("__proto__", "")] [("__proto__", "")]) "__proto__" ≠
      getOwn [("__proto__", "")] "__proto__" :=
  ⟨by decide, by decide, by decide⟩

/-- C6 (amended): merging a duplicate-free record without the key
`__proto__` with itself yields an equal record: the lookup function is
unchanged, and when all values are non-empty (as for every record the
program produces) the record is literally unchanged, insertion order
included.  (As stated, over all duplicate-free records, the claim is
refuted by `c6_merge_idempotent_counterexample`.) -/
theorem c6_merge_idempotent (m : Entries) (hnd : NoDupKeys m)
    (hproto : ∀ kv ∈ m, kv.1 ≠ "__proto__") :
    (∀ k, getOwn (updateEntries m m) k = getOwn m k) ∧
    (ValuesNonempty m → updateEntries m m = m) := by
  have hmP : getOwn m "__proto__" = none := by
    cases hg : getOwn m "__proto__" with
    | none => rfl
    | some v => exact absurd rfl (hproto _ (getOwn_mem m _ v hg))
  constructor
  · intro q
    by_cases hq : q = "__proto__"
    · subst hq
      unfold updateEntries
      rw [getOwn_assignAll_ne_all _ _ _
          (fun kv hkv => hproto kv (mem_enumOrder hkv)),
        getOwn_filter_keyPred m (fun k => jsGetTruthy m k) "__proto__", hmP]
      simp
    · unfold updateEntries
      rw [assignAll_enum_getOwn m _ q hq hnd]
      cases hg : getOwn m q with
      | some v => simp [Option.or]
      | none =>
        simp only [Option.or]
        rw [getOwn_filter_keyPred m (fun k => jsGetTruthy m k) q, hg]
        simp
  · intro hval
    unfold updateEntries
    have hfil : (m.filter fun kv => jsGetTruthy m kv.1) = m := by
      rw [List.filter_eq_self]
      intro kv hmem
      cases hG : getOwn m kv.1 with
      | none =>
        have : hasKey m kv.1 = true :=
          (hasKey_iff_mem_keysOf m kv.1).mpr (List.mem_map.mpr ⟨kv, hmem, rfl⟩)
        rw [hasKey, hG] at this
        simp at this
      | some w =>
        have hw : w ≠ "" := hval (kv.1, w) (getOwn_mem m kv.1 w hG)
        have hie : w.isEmpty = false := by
          rw [Bool.eq_false_iff]
          intro h
          exact hw ((String.isEmpty_iff w).mp h)
        simp [jsGetTruthy, hG, hie]
    rw [hfil]
    exact assignAll_of_present (enumOrder m) m fun kv hmem =>
      getOwn_of_mem_nodup m kv hnd (mem_enumOrder hmem)

/-- Witness for C6 (amended) at a concrete record. -/
theorem c6_merge_idempotent_witness :
    getOwn (updateEntries [("a", "1"), ("b", "2")] [("a", "1"), ("b", "2")]) "a" =
      getOwn [("a", "1"), ("b", "2")] "a" ∧
    updateEntries [("a", "1"), ("b", "2")] [("a", "1"), ("b", "2")] =
      [("a", "1"), ("b", "2")] :=
  ⟨(c6_merge_idempotent _ (by decide) (by decide)).1 "a",
   (c6_merge_idempotent _ (by decide) (by decide)).2 (by decide)⟩

/-- Counterexample to C7 as stated: a fresh file `123.pdf` derives the
array-index key `123`, which `Object.entries` enumerates before the
retained key `zebra` — a newly added key precedes a retained key in the
serialization. -/
theorem c7_merge_key_order_counterexample :
    updateEntries [("zebra", "z.pdf")] [("zebra", "z.pdf"), ("123", "n.pdf")] =
      [("zebra", "z.pdf"), ("123", "n.pdf")] ∧
    keysOf (enumOrder (updateEntries [("zebra", "z.pdf")]
      [("zebra", "z.pdf"), ("123", "n.pdf")])) = ["123", "zebra"] ∧
    keysOf (enumOrder (updateEntries [("zebra", "z.pdf")]
      [("zebra", "z.pdf"), ("123", "n.pdf")])) ≠
      ((keysOf [("zebra", "z.pdf")]).filter fun k =>
        hasKey [("zebra", "z.pdf"), ("123", "n.pdf")] k) ++
      ((keysOf [("zebra", "z.pdf"), ("123", "n.pdf")]).filter fun k =>
        !(hasKey [("zebra", "z.pdf")] k)) :=
  ⟨by decide, by decide, by decide⟩

/-- C7 (amended): for records without array-index keys (and without
prototype-shadowing keys in the previous record or `__proto__` in the
fresh one), the merged record's enumeration order — its serialization
order — is the retained previous keys in their previous relative order,
followed by the newly added fresh keys in fresh order.  (As stated, over
all records, the claim is refuted by
`c7_merge_key_order_counterexample`.) -/
theorem c7_merge_key_order (prev fresh : Entries) (hnd : NoDupKeys fresh)
    (hval : ValuesNonempty fresh)
    (hprev : ∀ kv ∈ prev, isObjectProtoKey kv.1 = false)
    (hfresh : ∀ kv ∈ fresh, kv.1 ≠ "__proto__")
    (hpidx : ∀ kv ∈ prev, isArrayIndex kv.1 = false)
    (hfidx : ∀ kv ∈ fresh, isArrayIndex kv.1 = false) :
    keysOf (enumOrder (updateEntries prev fresh)) =
      ((keysOf prev).filter fun k => hasKey fresh k) ++
      ((keysOf fresh).filter fun k => !(hasKey prev k)) := by
  have henum : enumOrder fresh = fresh := enumOrder_eq_self fresh hfidx
  have hkeys : keysOf (updateEntries prev fresh) =
      ((keysOf prev).filter fun k => hasKey fresh k) ++
      ((keysOf fresh).filter fun k => !(hasKey prev k)) := by
    unfold updateEntries
    rw [henum, keysOf_assignAll fresh _ hnd hfresh,
      keysOf_filter_keyPred prev fun k => jsGetTruthy fresh k]
    have h2 : ((keysOf prev).filter fun k => jsGetTruthy fresh k) =
        (keysOf prev).filter fun k => hasKey fresh k := by
      apply List.filter_congr
      intro q hq
      obtain ⟨kvq, hkvq, rfl⟩ := List.mem_map.mp hq
      exact jsGetTruthy_eq_hasKey fresh kvq.1 (hprev kvq hkvq) hval
    have h3 : ((keysOf fresh).filter fun k =>
          !(hasKey (prev.filter fun kv => jsGetTruthy fresh kv.1) k)) =
        (keysOf fresh).filter fun k => !(hasKey prev k) := by
      apply List.filter_congr
      intro q hq
      rw [hasKey_filter_keyPred prev (fun k => jsGetTruthy fresh k) q]
      have hfq : jsGetTruthy fresh q = true := by
        have hmem : hasKey fresh q = true :=
          (hasKey_iff_mem_keysOf fresh q).mpr hq
        cases hG : getOwn fresh q with
        | none =>
          rw [hasKey, hG] at hmem
          simp at hmem
        | some w =>
          have hw : w ≠ "" := hval (q, w) (getOwn_mem fresh q w hG)
          have hie : w.isEmpty = false := by
            rw [Bool.eq_false_iff]
            intro h
            exact hw ((String.isEmpty_iff w).mp h)
          simp [jsGetTruthy, hG, hie]
      simp [hfq]
    rw [h2, h3]
  have hnoidx : ∀ kv ∈ updateEntries prev fresh, isArrayIndex kv.1 = false := by
    intro kv hmem
    have hk : kv.1 ∈ keysOf (updateEntries prev fresh) :=
      List.mem_map.mpr ⟨kv, hmem, rfl⟩
    rw [hkeys] at hk
    rcases List.mem_append.mp hk with hk | hk
    · obtain ⟨kvp, hkvp, heq⟩ := List.mem_map.mp (List.mem_of_mem_filter hk)
      rw [← heq]
      exact hpidx kvp hkvp
    · obtain ⟨kvf, hkvf, heq⟩ := List.mem_map.mp (List.mem_of_mem_filter hk)
      rw [← heq]
      exact hfidx kvf hkvf
  rw [enumOrder_eq_self _ hnoidx, hkeys]

/-- Witness for C7 (amended) at a concrete merge: `b` is retained in place,
`d` is appended after it. -/
theorem c7_merge_key_order_witness :
    keysOf (enumOrder (updateEntries [("a", "1"), ("b", "2")]
      [("d", "5"), ("b", "3")])) =
      ((keysOf [("a", "1"), ("b", "2")]).filter fun k =>
        hasKey [("d", "5"), ("b", "3")] k) ++
      ((keysOf [("d", "5"), ("b", "3")]).filter fun k =>
        !(hasKey [("a", "1"), ("b", "2")] k)) :=
  c7_merge_key_order _ _ (by decide) (by decide) (by decide) (by decide)
    (by decide) (by decide)

/-! ### C4, C9: last write wins in `generateKeys` and `readRootTxt` -/

/-- The line loop of `readRootTxt` is the assignment sequence of the
successfully parsed lines. -/
theorem readRootTxt_eq_buildEntries (content : String) :
    readRootTxt content =
      buildEntries ((splitNl content.data).filterMap parseLine) := by
  unfold readRootTxt buildEntries
  generalize splitNl content.data = lines
  suffices h : ∀ (acc : Entries),
      lines.foldl
        (fun acc line =>
          match parseLineL line with
          | some kv => objSet acc ⟨kv.1⟩ ⟨kv.2⟩
          | none => acc)
        acc = assignAll acc (lines.filterMap parseLine) from h []
  induction lines with
  | nil => intro acc; rfl
  | cons line rest ih =>
    intro acc
    cases hp : parseLineL line with
    | none =>
      simp only [List.foldl_cons, List.filterMap_cons, parseLine, hp,
        Option.map_none']
      exact ih acc
    | some kv =>
      simp only [List.foldl_cons, List.filterMap_cons, parseLine, hp,
        Option.map_some']
      exact ih (objSet acc ⟨kv.1⟩ ⟨kv.2⟩)

/-- Counterexample to C4 as stated: two files both derive the key
`__proto__`, yet the collision resolves to neither — the assignment
`fileToKey["__proto__"] = filename` dies in the inherited `__proto__`
setter, and the resulting record is empty. -/
theorem c4_generateKeys_counterexample :
    deriveKey "__proto__.pdf" = "__proto__" ∧
    deriveKey "__proto__.txt" = "__proto__" ∧
    generateKeys ["__proto__.pdf", "__proto__.txt"] = [] ∧
    getOwn (generateKeys ["__proto__.pdf", "__proto__.txt"]) "__proto__" ≠
      some "__proto__.txt" :=
  ⟨by decide, by decide, by decide, by decide⟩

/-- C4 (amended): for every list of filenames none of which derives the key
`__proto__`, `generateKeys` maps each key to the last file (in enumeration
order) deriving it — later files silently overwrite earlier ones — and on
the collision scenario `report-20240101.pdf`, `report-20240201.pdf` it
yields exactly the single entry `report: report-20240201.pdf`.  (As stated,
over all filename lists, the claim is refuted by
`c4_generateKeys_counterexample`.) -/
theorem c4_generateKeys_last_write_wins :
    (∀ (files : List String) (k : String),
      (∀ f ∈ files, deriveKey f ≠ "__proto__") →
      getOwn (generateKeys files) k =
        (files.filter fun f => deriveKey f = k).getLast?) ∧
    generateKeys ["report-20240101.pdf", "report-20240201.pdf"] =
      [("report", "report-20240201.pdf")] := by
  constructor
  · intro files k hproto
    unfold generateKeys buildEntries
    by_cases hk : k = "__proto__"
    · subst hk
      rw [getOwn_assignAll_ne_all _ _ _ ?_]
      · have hfil : (files.filter fun f => decide (deriveKey f = "__proto__")) =
            [] := by
          rw [List.filter_eq_nil_iff]
          intro f hf
          simp [hproto f hf]
        rw [hfil]
        rfl
      · intro kv hkv
        obtain ⟨f, hf, rfl⟩ := List.mem_map.mp hkv
        exact hproto f hf
    · rw [getOwn_assignAll _ _ _ hk, List.filter_map, List.getLast?_map]
      have hc : (files.filter
            ((fun kv : String × String => decide (kv.1 = k)) ∘
              fun f => (deriveKey f, f))) =
          files.filter fun f => decide (deriveKey f = k) :=
        List.filter_congr fun f _ => rfl
      rw [hc]
      cases hL : (files.filter fun f => decide (deriveKey f = k)).getLast? with
      | none => simp [getOwn, Option.or]
      | some f => simp [Option.or]
  · decide

/-- Witness for C4 (amended): a fresh lookup with the no-`__proto__`
hypothesis discharged on concrete files. -/
theorem c4_generateKeys_witness :
    getOwn (generateKeys ["report-20240101.pdf", "report-20240201.pdf"])
      "report" =
      (["report-20240101.pdf", "report-20240201.pdf"].filter fun f =>
        deriveKey f = "report").getLast? :=
  c4_generateKeys_last_write_wins.1
    ["report-20240101.pdf", "report-20240201.pdf"] "report" (by decide)

/-- Counterexample to C9 as stated: two well-formed lines share the key
`__proto__`, yet the parse maps that key to nothing — each assignment
`entries["__proto__"] = value` is a silent no-op, so the record stays
empty. -/
theorem c9_readRootTxt_counterexample :
    readRootTxt "__proto__: a\n__proto__: b" = [] ∧
    ((((splitNl ("__proto__: a\n__proto__: b" : String).data).filterMap
        parseLine).filter fun kv => kv.1 = "__proto__").getLast?.map
      Prod.snd) = some "b" ∧
    getOwn (readRootTxt "__proto__: a\n__proto__: b") "__proto__" ≠
      some "b" :=
  ⟨by decide, by decide, by decide⟩

/-- C9 (amended): for every key other than `__proto__`, the parsed record
maps the key to the value of the last well-formed line carrying it — later
lines overwrite earlier ones — as on `a: 1\na: 2`.  (At the key
`__proto__` the assignment is a silent no-op: see
`c9_readRootTxt_counterexample`.) -/
theorem c9_readRootTxt_last_line_wins :
    (∀ (content : String) (k : String), k ≠ "__proto__" →
      getOwn (readRootTxt content) k =
        ((((splitNl content.data).filterMap parseLine).filter
          fun kv => kv.1 = k).getLast?.map Prod.snd)) ∧
    readRootTxt "a: 1\na: 2" = [("a", "2")] := by
  constructor
  · intro content k hk
    rw [readRootTxt_eq_buildEntries, buildEntries, getOwn_assignAll _ _ _ hk]
    cases hL : (((splitNl content.data).filterMap parseLine).filter
        fun kv => kv.1 = k).getLast? with
    | none => simp [getOwn, Option.or]
    | some kv => simp [Option.or]
  · decide

/-- Witness for C9 (amended): the duplicate-key file `a: 1\na: 2` with the
non-`__proto__` hypothesis discharged. -/
theorem c9_readRootTxt_witness :
    getOwn (readRootTxt "a: 1\na: 2") "a" =
      ((((splitNl ("a: 1\na: 2" : String).data).filterMap parseLine).filter
        fun kv => kv.1 = "a").getLast?.map Prod.snd) :=
  c9_readRootTxt_last_line_wins.1 "a: 1\na: 2" "a" (by decide)

/-! ### C1, C5: key derivation -/

theorem firstHyphenDigit_cons_cons (c x : Char) (t : List Char) :
    firstHyphenDigit (c :: x :: t) =
      if c = '-' ∧ x.isDigit then some 0
      else (firstHyphenDigit (x :: t)).map (· + 1) := rfl

/-- The regex finds the hyphen at the end of a digit-free block when a digit
follows it. -/
theorem firstHyphenDigit_append (a : List Char) (d : Char) (b : List Char)
    (ha : ∀ c ∈ a, c.isDigit = false) (hd : d.isDigit = true) :
    firstHyphenDigit (a ++ '-' :: d :: b) = some a.length := by
  induction a with
  | nil => simp [firstHyphenDigit_cons_cons, hd]
  | cons c a' ih =>
    have ha' : ∀ x ∈ a', x.isDigit = false := fun x hx => ha x (by simp [hx])
    have hrec := ih ha'
    cases a' with
    | nil =>
      simp only [List.nil_append, List.cons_append] at hrec ⊢
      rw [firstHyphenDigit_cons_cons, hrec]
      simp [show ('-' : Char).isDigit = false from rfl]
    | cons e a'' =>
      have he : e.isDigit = false := ha e (by simp)
      simp only [List.cons_append] at hrec ⊢
      rw [firstHyphenDigit_cons_cons, hrec]
      simp [he]

/-- Without a digit anywhere, the regex does not match. -/
theorem firstHyphenDigit_none_of_no_digit (s : List Char)
    (h : ∀ c ∈ s, c.isDigit = false) : firstHyphenDigit s = none := by
  induction s with
  | nil => rfl
  | cons c rest ih =>
    cases rest with
    | nil => rfl
    | cons d t =>
      have hd : d.isDigit = false := h d (by simp)
      have ht : ∀ x ∈ d :: t, x.isDigit = false := fun x hx => h x (by simp [hx])
      rw [firstHyphenDigit_cons_cons, ih ht]
      simp [hd]

theorem takeWhile_append_all (p : Char → Bool) (a rest : List Char)
    (h : ∀ c ∈ a, p c = true) :
    (a ++ rest).takeWhile p = a ++ rest.takeWhile p := by
  induction a with
  | nil => rfl
  | cons c a' ih =>
    have hc : p c = true := h c (by simp)
    rw [List.cons_append, List.takeWhile_cons, hc]
    simp only [List.cons_append]
    rw [ih fun x hx => h x (by simp [hx])]
    simp

theorem mem_stripExt {c : Char} {cs : List Char} (h : c ∈ stripExt cs) :
    c ∈ cs := by
  simp only [stripExt] at h
  split at h
  · exact h
  · split at h
    · exact h
    · split at h
      · exact h
      · exact (List.take_sublist _ _).mem h

theorem mem_stripThisismy {c : Char} {cs : List Char}
    (h : c ∈ stripThisismy cs) : c ∈ cs := by
  unfold stripThisismy at h
  split at h
  · exact (List.take_sublist _ _).mem h
  · exact h

/-- C1 (amended): for every filename whose stripped form splits as a
digit-free block, a hyphen, then a digit, the derived key is the spec's
formula — the lowercase prefix strictly before the first digit with the
trailing hyphen removed.  (The unamended claim, quantified over all
filenames containing a digit, is refuted by `c1_digit_rule_counterexample`:
the source regex requires the first digit to sit immediately after a
hyphen.) -/
theorem c1_digit_rule_amended (f : String) (a : List Char) (d : Char)
    (b : List Char) (hs : stripThisismy (stripExt f.data) = a ++ '-' :: d :: b)
    (ha : ∀ c ∈ a, c.isDigit = false) (hd : d.isDigit = true) :
    deriveKey f = specKeyBeforeFirstDigit f := by
  unfold deriveKey specKeyBeforeFirstDigit deriveKeyL
  rw [hs]
  have h1 : baseNameOf (a ++ '-' :: d :: b) = a ++ ['-'] := by
    unfold baseNameOf
    rw [firstHyphenDigit_append a d b ha hd]
    show List.take (a.length + 1) (a ++ '-' :: d :: b) = a ++ ['-']
    rw [show a ++ '-' :: d :: b = (a ++ ['-']) ++ d :: b by simp,
      show a.length + 1 = (a ++ ['-']).length by simp, List.take_left]
  have h2 : (a ++ '-' :: d :: b).takeWhile (fun c => !c.isDigit) =
      a ++ ['-'] := by
    rw [takeWhile_append_all _ a _ fun c hc => by simp [ha c hc]]
    rw [List.takeWhile_cons]
    simp [hd]
  rw [h1, h2]

/-- Counterexample to C1 as stated: `report2024.pdf` contains a digit, but
its first digit is not preceded by a hyphen; the code keeps the whole name
`report2024` while the claim's formula predicts `report`. -/
theorem c1_digit_rule_counterexample :
    "report2024.pdf".data.any Char.isDigit = true ∧
    deriveKey "report2024.pdf" = "report2024" ∧
    specKeyBeforeFirstDigit "report2024.pdf" = "report" ∧
    deriveKey "report2024.pdf" ≠ specKeyBeforeFirstDigit "report2024.pdf" :=
  ⟨by decide, by decide, by decide, by decide⟩

/-- Witness for C1 (amended) on the spec's own example. -/
theorem c1_digit_rule_witness :
    deriveKey "daily-briefing-20240501.pdf" =
      specKeyBeforeFirstDigit "daily-briefing-20240501.pdf" ∧
    deriveKey "daily-briefing-20240501.pdf" = "daily-briefing" :=
  ⟨c1_digit_rule_amended "daily-briefing-20240501.pdf" "daily-briefing".data
      '2' "0240501".data (by decide) (by decide) (by decide),
   by decide⟩

/-- C5 (amended): for every filename with no digit, the derived key is the
lowercase stripped filename with a trailing hyphen also removed.  (The
unamended claim omits the trailing-hyphen removal and is refuted by
`c5_no_digit_counterexample`.) -/
theorem c5_no_digit_amended (f : String) (h : ∀ c ∈ f.data, c.isDigit = false) :
    deriveKey f =
      ⟨(stripTrailingHyphen (stripThisismy (stripExt f.data))).map
        Char.toLower⟩ := by
  unfold deriveKey deriveKeyL
  have hsub : ∀ c ∈ stripThisismy (stripExt f.data), c.isDigit = false :=
    fun c hc => h c (mem_stripExt (mem_stripThisismy hc))
  have hbase : baseNameOf (stripThisismy (stripExt f.data)) =
      stripThisismy (stripExt f.data) := by
    unfold baseNameOf
    rw [firstHyphenDigit_none_of_no_digit _ hsub]
  rw [hbase]

/-- Counterexample to C5 as stated: `abc-.txt` has no digit; the code also
strips the trailing hyphen, so the key is `abc`, not the claim's `abc-`. -/
theorem c5_no_digit_counterexample :
    (∀ c ∈ "abc-.txt".data, c.isDigit = false) ∧
    deriveKey "abc-.txt" = "abc" ∧
    specKeyNoDigit "abc-.txt" = "abc-" ∧
    deriveKey "abc-.txt" ≠ specKeyNoDigit "abc-.txt" :=
  ⟨by decide, by decide, by decide, by decide⟩

/-- Witness for C5 (amended) on the spec's own example. -/
theorem c5_no_digit_witness :
    deriveKey "notes.thisismy.txt" =
      ⟨(stripTrailingHyphen (stripThisismy
        (stripExt "notes.thisismy.txt".data))).map Char.toLower⟩ ∧
    deriveKey "notes.thisismy.txt" = "notes" :=
  ⟨c5_no_digit_amended "notes.thisismy.txt" (by decide), by decide⟩

/-! ### C10: serialization and trailing newlines -/

theorem formatLine_data (kv : String × String) :
    (formatLine kv).data = kv.1.data ++ ':' :: ' ' :: kv.2.data := by
  unfold formatLine
  rw [String.data_append, String.data_append,
    show (": " : String).data = [':', ' '] from by decide]
  simp

theorem formatLines_cons_cons (kv kv' : String × String)
    (rest : Entries) :
    formatLines (kv :: kv' :: rest) =
      formatLine kv ++ "\n" ++ formatLines (kv' :: rest) := rfl

theorem formatLines_data_ne_nil (m : Entries) (h : m ≠ []) :
    (formatLines m).data ≠ [] := by
  cases m with
  | nil => exact absurd rfl h
  | cons kv rest =>
    cases rest with
    | nil =>
      show (formatLine kv).data ≠ []
      rw [formatLine_data]
      simp
    | cons kv' rest' =>
      rw [formatLines_cons_cons, String.data_append, String.data_append,
        show ("\n" : String).data = ['\n'] from by decide]
      simp

/-- The joined lines do not end in a newline when no value does. -/
theorem formatLines_getLast_ne (m : Entries)
    (h : ∀ kv ∈ m, kv.2.data.getLast? ≠ some '\n') :
    (formatLines m).data.getLast? ≠ some '\n' := by
  induction m with
  | nil => simp [formatLines]
  | cons kv rest ih =>
    cases hr : rest with
    | nil =>
      show ((formatLine kv).data).getLast? ≠ some '\n'
      rw [formatLine_data, List.getLast?_append]
      have hv := h kv (by simp)
      cases hvd : kv.2.data with
      | nil => simp [Option.or]
      | cons c t =>
        rw [List.getLast?_cons_cons, List.getLast?_cons_cons]
        rw [hvd] at hv
        cases hL : (c :: t).getLast? with
        | none => simp at hL
        | some x =>
          rw [hL] at hv
          simp only [Option.or]
          exact hv
    | cons kv' rest' =>
      have hnil : (formatLines (kv' :: rest')).data ≠ [] :=
        formatLines_data_ne_nil _ (by simp)
      have ihr : (formatLines (kv' :: rest')).data.getLast? ≠ some '\n' := by
        rw [← hr]
        exact ih fun x hx => h x (List.mem_cons_of_mem _ hx)
      show ((formatLine kv ++ "\n" ++ formatLines (kv' :: rest')).data).getLast? ≠
        some '\n'
      rw [String.data_append, List.getLast?_append]
      cases hL : (formatLines (kv' :: rest')).data with
      | nil => exact absurd hL hnil
      | cons c t =>
        rw [hL] at ihr
        cases hx : (c :: t).getLast? with
        | none => simp at hx
        | some x =>
          rw [hx] at ihr
          simp only [Option.or]
          exact ihr

/-- C10 (amended): when no value ends with a newline character — true of
every parsed or derived record — the serialized text does not end with a
newline, and the empty record serializes to the empty string.  The
conclusion is insensitive to the enumeration reordering inside
`formatEntries`, since the reordered entries are the same entries.  (As
stated, over every record, the claim is refuted by
`c10_trailing_newline_counterexample`: a value that itself ends in `'\n'`
makes the joined text end in `'\n'`.) -/
theorem c10_no_trailing_newline_amended (m : Entries)
    (h : ∀ kv ∈ m, kv.2.data.getLast? ≠ some '\n') :
    (formatEntries m).data.getLast? ≠ some '\n' ∧
    formatEntries ([] : Entries) = "" := by
  refine ⟨?_, rfl⟩
  unfold formatEntries
  exact formatLines_getLast_ne (enumOrder m) fun kv hkv =>
    h kv (mem_enumOrder hkv)

/-- Counterexample to C10 as stated: a record whose value ends with a
newline serializes to text ending with a newline. -/
theorem c10_trailing_newline_counterexample :
    (formatEntries [("k", "x\n")]).data.getLast? = some '\n' := by decide

/-- Witness for C10 (amended) at a concrete record. -/
theorem c10_no_trailing_newline_witness :
    (formatEntries [("a", "1")]).data.getLast? ≠ some '\n' ∧
    formatEntries ([] : Entries) = "" :=
  c10_no_trailing_newline_amended [("a", "1")] (by decide)

/-! ### C8, C3: line parsing -/

theorem takeWhile_colon (k t : List Char) (hk : ':' ∉ k) :
    (k ++ ':' :: t).takeWhile (· ≠ ':') = k := by
  induction k with
  | nil =>
    rw [List.nil_append, List.takeWhile_cons]
    simp
  | cons c k' ih =>
    have hc : c ≠ ':' := fun h => hk (by simp [h])
    have ih' := ih fun h => hk (by simp [h])
    rw [List.cons_append, List.takeWhile_cons, if_pos (by simp [hc]), ih']

theorem drop_colon (k t : List Char) :
    (k ++ ':' :: t).drop (k.length + 1) = t := by
  rw [show k ++ ':' :: t = (k ++ [':']) ++ t by simp,
    show k.length + 1 = (k ++ [':']).length by simp, List.drop_left]

/-- Exact evaluation of the line parser on a well-formed serialized line:
`key` nonempty and colon-free, one space, then a value that does not start
with whitespace and contains no line terminator. -/
theorem parseLineL_format (k v : List Char) (hkne : k ≠ []) (hkc : ':' ∉ k)
    (hvne : v ≠ [])
    (hvhead : ∀ c t, v = c :: t → isJsWhitespace c = false)
    (hvnt : ∀ c ∈ v, isLineTerminator c = false) :
    parseLineL (k ++ ':' :: ' ' :: v) = some (k, v) := by
  obtain ⟨c, t, rfl⟩ : ∃ c t, v = c :: t := by
    cases v with
    | nil => exact absurd rfl hvne
    | cons c t => exact ⟨c, t, rfl⟩
  have hc : isJsWhitespace c = false := hvhead c t rfl
  simp only [parseLineL, takeWhile_colon k (' ' :: c :: t) hkc,
    drop_colon k (' ' :: c :: t)]
  have h1 : ¬ k.length = (k ++ ':' :: ' ' :: c :: t).length := by
    simp only [List.length_append, List.length_cons]
    omega
  have h2 : k.isEmpty = false := by
    cases k with
    | nil => exact absurd rfl hkne
    | cons x xs => rfl
  have h3 : (' ' :: c :: t).isEmpty = false := rfl
  have h4 : (' ' :: c :: t).takeWhile isJsWhitespace = [' '] := by
    rw [List.takeWhile_cons, if_pos (by decide), List.takeWhile_cons,
      if_neg (by simp [hc])]
  have h5 : min ([' '] : List Char).length ((' ' :: c :: t).length - 1) = 1 := by
    simp
  have h6 : (c :: t).any isLineTerminator = false := by
    rw [List.any_eq_false]
    intro x hx
    simp [hvnt x hx]
  rw [if_neg h1]
  simp only [h2, Bool.false_eq_true, if_false, h3, h4, h5, List.drop_succ_cons,
    List.drop_zero, h6]

/-- The parser succeeds on every line of the (amended) `key: value` shape. -/
theorem parseLineL_isSome_of_matches (line : List Char)
    (h : LineMatchesCode line) : (parseLineL line).isSome = true := by
  obtain ⟨k, w, v, hline, hkne, hkc, hw, hvne, hvnt⟩ := h
  subst hline
  simp only [parseLineL, takeWhile_colon k (w ++ v) hkc, drop_colon k (w ++ v)]
  have h1 : ¬ k.length = (k ++ ':' :: (w ++ v)).length := by
    simp only [List.length_append, List.length_cons]
    omega
  have h2 : k.isEmpty = false := by
    cases k with
    | nil => exact absurd rfl hkne
    | cons x xs => rfl
  have h3 : (w ++ v).isEmpty = false := by
    cases hwv : w ++ v with
    | nil => exact absurd (List.append_eq_nil.mp hwv).2 hvne
    | cons x xs => rfl
  have hvpos : 1 ≤ v.length := by
    cases v with
    | nil => exact absurd rfl hvne
    | cons x xs => simp
  have hW : (w ++ v).takeWhile isJsWhitespace =
      w ++ v.takeWhile isJsWhitespace :=
    takeWhile_append_all isJsWhitespace w v hw
  have hge : w.length ≤
      min ((w ++ v).takeWhile isJsWhitespace).length ((w ++ v).length - 1) := by
    rw [hW]
    refine le_min (by simp) ?_
    simp only [List.length_append]
    omega
  obtain ⟨j, hj⟩ := Nat.le.dest hge
  have hdrop : (w ++ v).drop
      (min ((w ++ v).takeWhile isJsWhitespace).length ((w ++ v).length - 1)) =
      v.drop j := by
    rw [← hj, List.drop_append]
  have h6 : (v.drop j).any isLineTerminator = false := by
    rw [List.any_eq_false]
    intro x hx
    simp [hvnt x (List.mem_of_mem_drop hx)]
  rw [if_neg h1]
  simp only [h2, Bool.false_eq_true, if_false, h3, hdrop, h6, Option.isSome_some]

/-- A line whose colon-free prefix is proper decomposes at its first
colon. -/
theorem takeWhile_colon_decomp (line : List Char)
    (h : ¬ (line.takeWhile (· ≠ ':')).length = line.length) :
    line = line.takeWhile (· ≠ ':') ++ ':' ::
      line.drop ((line.takeWhile (· ≠ ':')).length + 1) := by
  induction line with
  | nil => simp at h
  | cons c t ih =>
    by_cases hc : c = ':'
    · subst hc
      rw [List.takeWhile_cons, if_neg (by simp)]
      simp
    · rw [List.takeWhile_cons, if_pos (by simp [hc])] at h ⊢
      simp only [List.length_cons] at h
      have h' : ¬ (t.takeWhile (· ≠ ':')).length = t.length := fun he =>
        h (by rw [he])
      simp only [List.length_cons, List.cons_append, List.drop_succ_cons]
      conv_lhs => rw [ih h']

theorem take_takeWhile_eq (p : Char → Bool) (l : List Char) (i : Nat)
    (h : i ≤ (l.takeWhile p).length) : l.take i = (l.takeWhile p).take i := by
  induction l generalizing i with
  | nil => simp
  | cons a t ih =>
    by_cases hpa : p a = true
    · rw [List.takeWhile_cons, if_pos hpa] at h ⊢
      cases i with
      | zero => simp
      | succ j =>
        rw [List.take_succ_cons, List.take_succ_cons, ih j (by simpa using h)]
    · rw [List.takeWhile_cons, if_neg hpa] at h
      simp only [List.length_nil, Nat.le_zero] at h
      rw [h]
      simp

/-- Every successful parse exhibits the (amended) `key: value` shape. -/
theorem matches_of_parseLineL_isSome (line : List Char)
    (h : (parseLineL line).isSome = true) : LineMatchesCode line := by
  simp only [parseLineL] at h
  by_cases h1 : (line.takeWhile (· ≠ ':')).length = line.length
  · rw [if_pos h1] at h
    simp at h
  rw [if_neg h1] at h
  by_cases h2 : (line.takeWhile (· ≠ ':')).isEmpty = true
  · rw [if_pos h2] at h
    simp at h
  rw [if_neg h2] at h
  by_cases h3 : (line.drop ((line.takeWhile (· ≠ ':')).length + 1)).isEmpty = true
  · rw [if_pos h3] at h
    simp at h
  rw [if_neg h3] at h
  set k := line.takeWhile (· ≠ ':') with hk
  set rest := line.drop (k.length + 1) with hrest
  set i := min (rest.takeWhile isJsWhitespace).length (rest.length - 1) with hi
  by_cases h4 : (rest.drop i).any isLineTerminator = true
  · rw [if_pos h4] at h
    simp at h
  refine ⟨k, rest.take i, rest.drop i, ?_, ?_, ?_, ?_, ?_, ?_⟩
  · rw [List.take_append_drop]
    exact takeWhile_colon_decomp line h1
  · intro hnil
    exact h2 (by rw [hnil]; rfl)
  · intro hmem
    have := List.mem_takeWhile_imp (hk ▸ hmem)
    simp at this
  · intro c hc
    have hle : i ≤ (rest.takeWhile isJsWhitespace).length := min_le_left _ _
    rw [take_takeWhile_eq isJsWhitespace rest i hle] at hc
    exact List.mem_takeWhile_imp (List.mem_of_mem_take hc)
  · intro hnil
    rw [List.drop_eq_nil_iff] at hnil
    have hrne : rest ≠ [] := by
      intro hr
      exact h3 (by rw [hr]; rfl)
    have hlen : 1 ≤ rest.length := by
      cases hrc : rest with
      | nil => exact absurd hrc hrne
      | cons _ _ => simp [hrc]
    have hle : i ≤ rest.length - 1 := min_le_right _ _
    omega
  · intro c hc
    have h4' : (rest.drop i).any isLineTerminator = false := by
      rw [← Bool.not_eq_true]
      exact h4
    rw [List.any_eq_false] at h4'
    simpa using h4' c hc

/-- C8 (amended): parsing is total and per-line: a line parses exactly when
it has the shape `key: value` with a non-empty colon-free key, a colon,
optional whitespace, and a non-empty remainder free of carriage returns and
other line terminators; every parsed line whose key is not `__proto__` has
its key present in the resulting record, and the whole parse is the
assignment sequence of the successfully parsed lines, all other lines being
silently ignored.  (The unamended claim fails in two ways, both shown by
`c8_line_policy_counterexample`: the `.+` value pattern cannot match a
carriage return, and the assignment for a parsed `__proto__` line is a
silent no-op.) -/
theorem c8_line_policy_amended (content : String) (line : List Char)
    (hmem : line ∈ splitNl content.data) :
    ((parseLineL line).isSome = true ↔ LineMatchesCode line) ∧
    (∀ k v, parseLineL line = some (k, v) → (⟨k⟩ : String) ≠ "__proto__" →
      hasKey (readRootTxt content) ⟨k⟩ = true) ∧
    readRootTxt content =
      buildEntries ((splitNl content.data).filterMap parseLine) := by
  refine ⟨⟨matches_of_parseLineL_isSome line, parseLineL_isSome_of_matches line⟩,
    ?_, readRootTxt_eq_buildEntries content⟩
  intro k v hp hk
  rw [readRootTxt_eq_buildEntries content]
  unfold buildEntries
  rw [hasKey_assignAll _ _ _ hk]
  have hmem' : ((⟨k⟩ : String), (⟨v⟩ : String)) ∈
      (splitNl content.data).filterMap parseLine :=
    List.mem_filterMap.mpr ⟨line, hmem, by rw [parseLine, hp]; rfl⟩
  have hany : (((splitNl content.data).filterMap parseLine).any
      fun kv => kv.1 = (⟨k⟩ : String)) = true := by
    rw [List.any_eq_true]
    exact ⟨_, hmem', by simp⟩
  simp [hany]

/-- Counterexample to C8 as stated, in both failure modes: `k: v\r` has a
non-empty colon-free key, a colon, whitespace, and a non-empty remainder,
yet contributes no entry — the `.+` value pattern cannot match the carriage
return; and `__proto__: x` parses, yet `entries["__proto__"] = "x"` dies in
the inherited `__proto__` setter, so it contributes no entry either. -/
theorem c8_line_policy_counterexample :
    (LineMatchesSpec "k: v\r".data ∧ readRootTxt "k: v\r" = []) ∧
    (LineMatchesSpec "__proto__: x".data ∧
      parseLineL "__proto__: x".data = some ("__proto__".data, "x".data) ∧
      readRootTxt "__proto__: x" = []) :=
  ⟨⟨⟨"k".data, [' '], ['v', '\r'], by decide, by decide, by decide, by decide,
    by decide⟩, by decide⟩,
   ⟨⟨"__proto__".data, [' '], ['x'], by decide, by decide, by decide,
    by decide, by decide⟩, by decide, by decide⟩⟩

/-- Witness for C8 (amended): in a file with one well-formed and one
malformed line, the well-formed line's key is present. -/
theorem c8_line_policy_witness :
    hasKey (readRootTxt "a: 1\njunk line") "a" = true :=
  (c8_line_policy_amended "a: 1\njunk line" "a: 1".data (by decide)).2.1
    "a".data "1".data (by decide) (by decide)

theorem joinNl_cons_cons (l l' : List Char) (ls : List (List Char)) :
    joinNl (l :: l' :: ls) = l ++ '\n' :: joinNl (l' :: ls) := rfl

theorem formatLines_data_join (m : Entries) :
    (formatLines m).data = joinNl (m.map fun kv => (formatLine kv).data) := by
  induction m with
  | nil => rfl
  | cons kv rest ih =>
    cases rest with
    | nil => rfl
    | cons kv' rest' =>
      rw [formatLines_cons_cons, String.data_append, String.data_append,
        show ("\n" : String).data = ['\n'] from by decide, ih]
      simp [joinNl_cons_cons]

theorem splitNl_no_nl (a : List Char) (h : '\n' ∉ a) : splitNl a = [a] := by
  induction a with
  | nil => rfl
  | cons c t ih =>
    have hc : ¬ c = '\n' := fun he => h (by simp [he])
    rw [splitNl, if_neg hc, ih fun hm => h (by simp [hm])]

theorem splitNl_append (a b : List Char) (h : '\n' ∉ a) :
    splitNl (a ++ '\n' :: b) = a :: splitNl b := by
  induction a with
  | nil =>
    rw [List.nil_append, splitNl, if_pos rfl]
  | cons c t ih =>
    have hc : ¬ c = '\n' := fun he => h (by simp [he])
    rw [List.cons_append, splitNl, if_neg hc, ih fun hm => h (by simp [hm])]

theorem splitNl_joinNl (lines : List (List Char)) (hne : lines ≠ [])
    (h : ∀ l ∈ lines, '\n' ∉ l) : splitNl (joinNl lines) = lines := by
  induction lines with
  | nil => exact absurd rfl hne
  | cons l rest ih =>
    cases rest with
    | nil => exact splitNl_no_nl l (h l (by simp))
    | cons l' rest' =>
      rw [joinNl_cons_cons, splitNl_append l _ (h l (by simp)),
        ih (by simp) fun x hx => h x (by simp [hx])]

theorem data_ne_nil {s : String} (h : s ≠ "") : s.data ≠ [] := by
  intro hd
  have h2 : s = ⟨s.data⟩ := rfl
  rw [hd] at h2
  exact h (h2.trans (by decide))

theorem filterMap_parse_format (l : Entries)
    (h : ∀ kv ∈ l, parseLine (formatLine kv).data = some kv) :
    (l.map fun kv => (formatLine kv).data).filterMap parseLine = l := by
  induction l with
  | nil => rfl
  | cons kv rest ih =>
    rw [List.map_cons, List.filterMap_cons, h kv (by simp),
      ih fun x hx => h x (by simp [hx])]

/-- C3 (amended): serializing a record and re-parsing yields the record
back, provided — beyond the claim's colon-free keys — the keys are
non-empty, newline-free, not `__proto__`, and not array-index strings, and
the values are non-empty, free of line terminators, and do not start with a
whitespace character.  Every record the program itself persists satisfies
these conditions except possibly the array-index one, under which only the
entry order (not the content) changes.  (As stated, with only the colon
proviso, the claim is refuted by `c3_round_trip_counterexample`, one
conjunct per extra family of provisos.) -/
theorem c3_round_trip_amended (m : Entries) (hnd : NoDupKeys m)
    (hk : ∀ kv ∈ m, kv.1 ≠ "" ∧ ':' ∉ kv.1.data ∧ '\n' ∉ kv.1.data ∧
      kv.1 ≠ "__proto__" ∧ isArrayIndex kv.1 = false)
    (hv : ∀ kv ∈ m, kv.2 ≠ "" ∧ (∀ c ∈ kv.2.data, isLineTerminator c = false) ∧
      (kv.2.data.head?.all fun c => !isJsWhitespace c) = true) :
    readRootTxt (formatEntries m) = m := by
  have henum : enumOrder m = m :=
    enumOrder_eq_self m fun kv hkv => (hk kv hkv).2.2.2.2
  cases m with
  | nil => rfl
  | cons kv0 rest =>
    rw [readRootTxt_eq_buildEntries]
    show buildEntries ((splitNl (formatLines
      (enumOrder (kv0 :: rest))).data).filterMap parseLine) = kv0 :: rest
    rw [henum, formatLines_data_join]
    have hlines : ∀ l ∈ (kv0 :: rest).map fun kv => (formatLine kv).data,
        '\n' ∉ l := by
      intro l hl
      obtain ⟨kv, hkv, rfl⟩ := List.mem_map.mp hl
      rw [formatLine_data]
      intro hmem
      rcases List.mem_append.mp hmem with hin | hin
      · exact (hk kv hkv).2.2.1 hin
      · rcases List.mem_cons.mp hin with he | hin
        · exact absurd he (by decide)
        · rcases List.mem_cons.mp hin with he | hin
          · exact absurd he (by decide)
          · have := (hv kv hkv).2.1 '\n' hin
            simp [isLineTerminator] at this
    rw [splitNl_joinNl _ (by simp) hlines]
    have hparse : ∀ kv ∈ (kv0 :: rest), parseLine (formatLine kv).data =
        some kv := by
      intro kv hkv
      obtain ⟨hk1, hk2, _⟩ := hk kv hkv
      obtain ⟨hv1, hv2, hv3⟩ := hv kv hkv
      have hvhead : ∀ c t, kv.2.data = c :: t → isJsWhitespace c = false := by
        intro c t heq
        rw [heq] at hv3
        simpa using hv3
      rw [parseLine, formatLine_data,
        parseLineL_format kv.1.data kv.2.data (data_ne_nil hk1) hk2
          (data_ne_nil hv1) hvhead hv2]
      rfl
    rw [filterMap_parse_format _ hparse]
    exact buildEntries_of_nodup _ hnd fun kv hkv => (hk kv hkv).2.2.2.1

/-- Counterexample to C3 as stated, one conjunct per extra proviso family:
colon-free keys do not suffice.  A value with a leading space re-parses with
the space eaten by `\s*`; a `__proto__` key is lost entirely (the re-parse
assignment is a no-op); and an array-index key is serialized first, so the
re-parsed record comes back in a different order. -/
theorem c3_round_trip_counterexample :
    (':' ∉ ("k" : String).data ∧
      readRootTxt (formatEntries [("k", " v")]) = [("k", "v")] ∧
      readRootTxt (formatEntries [("k", " v")]) ≠ [("k", " v")]) ∧
    (':' ∉ ("__proto__" : String).data ∧
      readRootTxt (formatEntries [("__proto__", "v")]) = [] ∧
      readRootTxt (formatEntries [("__proto__", "v")]) ≠ [("__proto__", "v")]) ∧
    (readRootTxt (formatEntries [("b", "x"), ("1", "y")]) =
        [("1", "y"), ("b", "x")] ∧
      readRootTxt (formatEntries [("b", "x"), ("1", "y")]) ≠
        [("b", "x"), ("1", "y")]) :=
  ⟨⟨by decide, by decide, by decide⟩, ⟨by decide, by decide, by decide⟩,
   ⟨by decide, by decide⟩⟩

/-- Witness for C3 (amended) at a concrete two-entry record. -/
theorem c3_round_trip_witness :
    readRootTxt (formatEntries [("alpha", "a-1.txt"), ("beta", "b.txt")]) =
      [("alpha", "a-1.txt"), ("beta", "b.txt")] :=
  c3_round_trip_amended [("alpha", "a-1.txt"), ("beta", "b.txt")]
    (by decide) (by decide) (by decide)

end Deploy
